import Mathlib

/-!
# Verification of `pathscanner.py` (fileconveyor change-detection core)

This file is a shallow embedding in Lean 4 of the change-detection engine of
`code/daemon/pathscanner.py`: the SQLite-backed record store, the directory
lister, the tree walker, and the diffing algorithm (`__scanhelper`), together
with the orchestrating entry points `initial_scan`, `scan`, `scan_tree` and
`remove` of the `PathScanner` class.

Modelling conventions:
* The SQLite table `(path text, filename text, mtime integer)` is modelled as a
  `List DBRow`; SQL result order is list order, and `INSERT` appends.
* A SQL pattern `col LIKE s + "%"` is modelled as a code-point prefix match
  (`likeMatch`), faithful for patterns whose stem contains no SQL wildcard
  characters, which is the case for filesystem paths considered here.
* Python dicts built by iterating rows (`d[k] = v`, later assignments win) are
  modelled as association lists with a last-binding lookup `pyLookup`.
* Python `Set` values are modelled as `Finset String`; iteration order over a
  set is unspecified in the source, and every loop over a set in the source is
  order-independent, so set-level operations (`Finset.biUnion`, filters) are a
  faithful model.
* `os.sep` is `"/"`; `os.path.join a b` is modelled as `a ++ "/" ++ b` (the
  source only joins a directory path with a name produced by `os.listdir`).
* The module-level `scanner` references inside `initial_scan` and `scan`
  (`scanner.__walktree`, `scanner.__listdir`) refer to the single live
  instance and are modelled as calls on the same state (`self`).
* The filesystem is an inductive tree `FS`; a child on which `os.stat` raises
  `os.error` is `FS.inaccessible`.
-/

/-- One persisted row of the `pathscanner` table: `(path, filename, mtime)`. -/
structure DBRow where
  path : String
  filename : String
  mtime : Int
deriving DecidableEq, Repr

/-- The record store: the rows of the SQLite table, in insertion order. -/
abbrev DB := List DBRow

/-- A filesystem node: a regular file with its mtime, a directory with its own
mtime and named children, or an entry whose `os.stat` fails (`os.error`). -/
inductive FS where
  | file : Int → FS
  | dir : Int → List (String × FS) → FS
  | inaccessible : FS

/-- `os.stat` on a node: `some (mtime, is_dir)` on success, `none` when the
call raises `os.error` (vanished entry, permission denied, broken symlink). -/
def statFS : FS → Option (Int × Bool)
  | FS.file m => some (m, false)
  | FS.dir m _ => some (m, true)
  | FS.inaccessible => none

/-- `PathScanner.__listdir`, applied to the children of one directory: yields
`(filename, mtime, is_dir)` for each child whose `stat` succeeds, skipping
(`continue`) each child whose `stat` raises `os.error`.  (The `path` component
of the source's 4-tuples always equals the argument and is kept implicit.) -/
def listdir : List (String × FS) → List (String × Int × Bool)
  | [] => []
  | (n, c) :: rest =>
    match statFS c with
    | none => listdir rest
    | some (m, d) => (n, m, d) :: listdir rest

/-- Lookup in a Python dict that was built by iterating an association list in
order and assigning `d[k] = v`: the LAST binding of a key wins. -/
def pyLookup : List (String × Int) → String → Option Int
  | [], _ => none
  | p :: rest, k =>
    match pyLookup rest k with
    | some v => some v
    | none => if p.1 = k then some p.2 else none

/-- The key set of a Python dict built from an association list
(`Set(d.keys())` in the source). -/
def keysOf (l : List (String × Int)) : Finset String :=
  (l.map Prod.fst).toFinset

/-- The SQL pattern `stem + "%"` applied to a column value: a prefix match on
the code points of the string (faithful for stems without SQL wildcards). -/
def likeMatch (stem s : String) : Bool :=
  stem.data.isPrefixOf s.data

/-- Python slicing `s[n:]`: drop the first `n` code points. -/
def sliceFrom (s : String) (n : Nat) : String :=
  ⟨s.data.drop n⟩

/-- `SELECT COUNT(filename) FROM table WHERE path=?`. -/
def countRecords (db : DB) (path : String) : Nat :=
  (db.filter (fun r => r.path = path)).length

/-- `SELECT filename, mtime FROM table WHERE path=?`, in row order: the
association list from which `scan` builds its `old_files` dict. -/
def fetchPairs (db : DB) (path : String) : List (String × Int) :=
  (db.filter (fun r => r.path = path)).map (fun r => (r.filename, r.mtime))

/-- The diff produced by `__scanhelper`: a dictionary of three `Set`s. -/
structure ScanResult where
  created : Finset String
  deleted : Finset String
  modified : Finset String
deriving DecidableEq

/-- `PathScanner.__scanhelper(path, old_files, new_files)`.

Steps 1–3 compute `created`, `deleted` and `modified` from the two snapshot
dicts exactly as the source does (including the double symmetric difference
used to find the possibly-modified names).  Step 4 expands `deleted`: for each
deleted name whose old mtime is the directory sentinel `-1`, it runs
`SELECT * FROM table WHERE path LIKE dirpath + "%"` and adds, for each matched
row, `os.path.join(subpath, subfilename)[len(path) + 1:]`. -/
def scanhelper (db : DB) (path : String) (old_files new_files : List (String × Int)) :
    ScanResult :=
  let old_filenames : Finset String := keysOf old_files
  let new_filenames : Finset String := keysOf new_files
  let created := new_filenames \ old_filenames
  let deleted := old_filenames \ new_filenames
  let possibly_modified := symmDiff (symmDiff (new_filenames ∪ old_filenames) created) deleted
  let modified := possibly_modified.filter
    (fun f => pyLookup old_files f ≠ pyLookup new_files f)
  let deleted_tree := deleted.biUnion (fun f =>
    if pyLookup old_files f = some (-1) then
      ((db.filter (fun r => likeMatch (path ++ "/" ++ f) r.path)).map
        (fun r => sliceFrom (r.path ++ "/" ++ r.filename) (path.length + 1))).toFinset
    else ∅)
  ⟨created, deleted ∪ deleted_tree, modified⟩

/-- `PathScanner.remove(path)`:
`DELETE FROM table WHERE path LIKE path + "%"`. -/
def remove (db : DB) (path : String) : DB :=
  db.filter (fun r => ¬ likeMatch path r.path)

/-- `os.path.basename`: the part of a path after the last separator
(the `tail` of `posixpath.split`). -/
def basenameOf (s : String) : String :=
  ⟨(s.data.reverse.takeWhile (fun c => c ≠ '/')).reverse⟩

/-- `os.path.dirname`: everything before the last separator, with trailing
separators stripped unless the head consists only of separators
(the `head` of `posixpath.split`). -/
def dirnameOf (s : String) : String :=
  let headRaw := s.data.take (s.data.length - (basenameOf s).data.length)
  if headRaw.any (fun c => c ≠ '/') then
    ⟨(headRaw.reverse.dropWhile (fun c => c = '/')).reverse⟩
  else ⟨headRaw⟩

/-- The `(path, filename)` key targeted by the `DELETE` statement that `scan`
issues for one name of the `deleted` set: a name with a non-empty dirname (a
cascade-produced relative path) is deleted at `path + os.sep + dirname`,
a plain name at `path` itself. -/
def delTarget (path f : String) : String × String :=
  (if (dirnameOf f).length ≠ 0 then path ++ "/" ++ dirnameOf f else path,
   basenameOf f)

/-- `PathScanner.scan(path)`, with the fresh `__listdir` output supplied as
`listing` (the only way `scan` reads the filesystem).

Returns the scan result together with the updated record store: `INSERT` of
each created name with its new mtime, `UPDATE` of each modified name's mtime,
and `DELETE` of each name of the (cascade-expanded) deleted set at the key
computed from its dirname/basename split.  The source iterates Python `Set`s,
whose order is unspecified; each loop's net effect is order-independent, so
created rows are appended in an arbitrary fixed enumeration of the created
set (the deduplicated new names absent from the old snapshot) and
updates/deletes are applied as a single pass. -/
def newFilesOf (listing : List (String × Int × Bool)) : List (String × Int) :=
  listing.map (fun e => (e.1, if e.2.2 then (-1 : Int) else e.2.1))

/-- The rows `INSERT`ed by `scan` for the created names: one row per element
of the created set, with the freshly observed mtime.  (The created set is
enumerated as the deduplicated new names absent from the old snapshot.) -/
def createdRowsOf (path : String) (old_files new_files : List (String × Int)) :
    List DBRow :=
  ((new_files.map Prod.fst).dedup.filter (fun f => f ∉ keysOf old_files)).map
    (fun n => ⟨path, n, (pyLookup new_files n).getD 0⟩)

/-- The effect on one row of the `UPDATE` statements `scan` issues for the
modified names: rows keyed by `(path, f)` for a modified `f` get the new
mtime, all other rows are untouched. -/
def updRow (path : String) (new_files : List (String × Int))
    (md : Finset String) (r : DBRow) : DBRow :=
  if r.path = path ∧ r.filename ∈ md then
    { r with mtime := (pyLookup new_files r.filename).getD r.mtime }
  else r

/-- Whether a row survives the `DELETE` statements `scan` issues for the
(cascade-expanded) deleted names. -/
def keepRow (path : String) (del : Finset String) (r : DBRow) : Bool :=
  decide (¬ ∃ f ∈ del, delTarget path f = (r.path, r.filename))

def scan (db : DB) (path : String) (listing : List (String × Int × Bool)) :
    ScanResult × DB :=
  let old_files := fetchPairs db path
  let new_files := newFilesOf listing
  let res := scanhelper db path old_files new_files
  let db1 := db ++ createdRowsOf path old_files new_files
  let db2 := db1.map (updRow path new_files res.modified)
  let db3 := db2.filter (keepRow path res.deleted)
  (res, db3)

mutual

/-- `PathScanner.__walktree(path)`: the sequence of row batches yielded for
`path`, one batch per directory.  For the current directory the batch holds a
row per listed child (mtime sentinel `-1` for directory children); each
directory child's own batches are yielded before the current batch. -/
def walktree (path : String) (fs : FS) : List (List DBRow) :=
  match fs with
  | FS.dir _ children =>
    let (batches, rows) := walkChildren path children
    batches ++ [rows]
  | _ => [[]]

/-- The loop body of `__walktree` over the `__listdir` output of one
directory: accumulates the current directory's rows and the recursively
yielded batches of its directory children, in listing order. -/
def walkChildren (path : String) :
    List (String × FS) → List (List DBRow) × List DBRow
  | [] => ([], [])
  | (n, c) :: rest =>
    match statFS c with
    | none => walkChildren path rest
    | some (m, d) =>
      let row : DBRow := ⟨path, n, if d then -1 else m⟩
      let (bs, rs) := walkChildren path rest
      if d then (walktree (path ++ "/" ++ n) c ++ bs, row :: rs)
      else (bs, row :: rs)

end

/-- `PathScanner.initial_scan(path)`: if `SELECT COUNT(filename) ... WHERE
path=?` is positive, return `false` ("already populated") and leave the store
untouched; otherwise insert every row of every batch yielded by `__walktree`
(the batched commits only group the inserts and do not change the final
state).  The source returns `None` on the populating branch; that is modelled
as `true`. -/
def initial_scan (db : DB) (path : String) (fs : FS) : Bool × DB :=
  if countRecords db path > 0 then (false, db)
  else (true, db ++ (walktree path fs).flatten)

mutual

/-- `PathScanner.scan_tree(path)`: scans `path` itself, yields `(path,
result)` with every name of the three result sets qualified by `path +
os.sep`, then re-lists the directory and recurses into every child that is
currently a directory on the live filesystem (skipping children whose `stat`
raises), yielding the recursive pairs.  The record store threads through the
calls.  Only ever invoked on directories; on a non-directory the source would
raise in `os.listdir`, modelled as an empty yield. -/
def scan_tree (db : DB) (path : String) (fs : FS) :
    List (String × ScanResult) × DB :=
  match fs with
  | FS.dir _ children =>
    let (res, db1) := scan db path (listdir children)
    let res' : ScanResult :=
      ⟨res.created.image (fun f => path ++ "/" ++ f),
       res.deleted.image (fun f => path ++ "/" ++ f),
       res.modified.image (fun f => path ++ "/" ++ f)⟩
    let (pairs, db2) := scanTreeChildren db1 path children
    ((path, res') :: pairs, db2)
  | _ => ([], db)

/-- The recursion loop of `scan_tree` over the children of one directory:
stat each child, skip failures and non-directories, and yield the recursive
`scan_tree` pairs of each directory child in order. -/
def scanTreeChildren (db : DB) (path : String) :
    List (String × FS) → List (String × ScanResult) × DB
  | [] => ([], db)
  | (n, c) :: rest =>
    match statFS c with
    | none => scanTreeChildren db path rest
    | some (_, d) =>
      if d then
        let (l1, db1) := scan_tree db (path ++ "/" ++ n) c
        let (l2, db2) := scanTreeChildren db1 path rest
        (l1 ++ l2, db2)
      else scanTreeChildren db path rest

end

/-- The `unchanged` names of a diff, as the spec's §8 uses the word: names
present in both snapshots whose mtimes agree.  (The source never materializes
this set; it exists only in the spec's partition property.) -/
def unchangedOf (o n : List (String × Int)) : Finset String :=
  (keysOf o ∩ keysOf n).filter (fun f => pyLookup o f = pyLookup n f)

/-! ## Lemmas about dict lookup and key sets -/

theorem pyLookup_append (a b : List (String × Int)) (k : String) :
    pyLookup (a ++ b) k =
      match pyLookup b k with
      | some v => some v
      | none => pyLookup a k := by
  induction a with
  | nil => cases h : pyLookup b k <;> simp [h, pyLookup]
  | cons p a ih =>
    have hstep : pyLookup (p :: a ++ b) k =
        match pyLookup (a ++ b) k with
        | some v => some v
        | none => if p.1 = k then some p.2 else none := rfl
    rw [hstep, ih]
    cases h : pyLookup b k <;> simp [pyLookup]

theorem mem_keysOf {l : List (String × Int)} {f : String} :
    f ∈ keysOf l ↔ ∃ v, pyLookup l f = some v := by
  induction l with
  | nil => simp [keysOf, pyLookup]
  | cons p rest ih =>
    have hk : f ∈ keysOf (p :: rest) ↔ p.1 = f ∨ f ∈ keysOf rest := by
      simp [keysOf, eq_comm]
    rw [hk, ih]
    simp only [pyLookup]
    cases hr : pyLookup rest f with
    | some v => simp [hr]
    | none => by_cases h : p.1 = f <;> simp [hr, h]

theorem pyLookup_eq_none {l : List (String × Int)} {f : String} :
    pyLookup l f = none ↔ f ∉ keysOf l := by
  rw [mem_keysOf]
  cases h : pyLookup l f <;> simp [h]

/-! ## Lemmas about the pure diff (`__scanhelper`) -/

/-- The double symmetric difference of step 3 computes exactly the set of
names present in both snapshots. -/
theorem symmDiff_inter (N O : Finset String) :
    symmDiff (symmDiff (N ∪ O) (N \ O)) (O \ N) = O ∩ N := by
  ext f
  simp only [Finset.mem_symmDiff, Finset.mem_union, Finset.mem_sdiff,
    Finset.mem_inter]
  tauto

theorem scanhelper_created (db : DB) (path : String)
    (o n : List (String × Int)) :
    (scanhelper db path o n).created = keysOf n \ keysOf o := rfl

theorem scanhelper_modified (db : DB) (path : String)
    (o n : List (String × Int)) :
    (scanhelper db path o n).modified =
      (keysOf o ∩ keysOf n).filter
        (fun f => pyLookup o f ≠ pyLookup n f) := by
  simp only [scanhelper]
  rw [symmDiff_inter]

theorem scanhelper_deleted (db : DB) (path : String)
    (o n : List (String × Int)) :
    (scanhelper db path o n).deleted =
      (keysOf o \ keysOf n) ∪
      (keysOf o \ keysOf n).biUnion (fun f =>
        if pyLookup o f = some (-1) then
          ((db.filter (fun r => likeMatch (path ++ "/" ++ f) r.path)).map
            (fun r => sliceFrom (r.path ++ "/" ++ r.filename) (path.length + 1))).toFinset
        else ∅) := rfl

theorem scanhelper_deleted_nil (path : String) (o n : List (String × Int)) :
    (scanhelper ([] : DB) path o n).deleted = keysOf o \ keysOf n := by
  rw [scanhelper_deleted]
  have : ((keysOf o \ keysOf n).biUnion (fun f =>
      if pyLookup o f = some (-1) then
        ((([] : DB).filter (fun r => likeMatch (path ++ "/" ++ f) r.path)).map
          (fun r => sliceFrom (r.path ++ "/" ++ r.filename) (path.length + 1))).toFinset
      else ∅)) = ∅ := by
    apply Finset.ext
    intro a
    simp
  rw [this, Finset.union_empty]

/-! ## Claim theorems -/

/-- C1 (code evaluated at the failing input): the cascade query and `remove`
use `path LIKE p + "%"` without terminating the stem with the path separator,
so with a persisted row under the sibling directory `/p/foobar`, deleting the
directory `foo` of `/p` reports `foobar/x` as deleted, and `remove "/p/foo"`
erases the sibling's row.  This contradicts the claim that the prefix query
matches exactly the rows whose full path starts with the given path followed
by the separator. -/
theorem cascade_and_remove_match_sibling :
    "foobar/x" ∈ (scanhelper [⟨"/p/foobar", "x", 5⟩] "/p"
        [("foo", -1), ("foobar", -1)] [("foobar", -1)]).deleted ∧
    remove [⟨"/p/foobar", "x", 5⟩] "/p/foo" = [] := by
  decide

/-- C2: the diff classifies exactly as the spec says: `created` is the set of
names in the new snapshot missing from the old, `modified` is the set of
names in both snapshots whose mtimes differ (so equal mtimes are never
`modified`, differing mtimes always are), the old-minus-new names are always
in `deleted`, and with no persisted rows (no cascade contribution) `deleted`
is exactly old-minus-new. -/
theorem scanhelper_characterization (db : DB) (path : String)
    (o n : List (String × Int)) (f : String) :
    (f ∈ (scanhelper db path o n).created ↔ f ∈ keysOf n ∧ f ∉ keysOf o) ∧
    (f ∈ (scanhelper db path o n).modified ↔
      (f ∈ keysOf o ∧ f ∈ keysOf n) ∧ pyLookup o f ≠ pyLookup n f) ∧
    (keysOf o \ keysOf n ⊆ (scanhelper db path o n).deleted) ∧
    (f ∈ (scanhelper ([] : DB) path o n).deleted ↔
      f ∈ keysOf o ∧ f ∉ keysOf n) := by
  refine ⟨?_, ?_, ?_, ?_⟩
  · rw [scanhelper_created]; simp
  · rw [scanhelper_modified]; simp [Finset.mem_filter, and_assoc]
  · rw [scanhelper_deleted]; exact Finset.subset_union_left
  · rw [scanhelper_deleted_nil]; simp

/-- C3: for a deleted name whose old record carries the directory sentinel
`-1`, the diff's `deleted` set contains the name itself and, for every
persisted row lying in that directory or below it, the row's path relative to
the scanned directory. -/
theorem scanhelper_cascade_deletes_subtree (db : DB) (path f : String)
    (o n : List (String × Int)) (r : DBRow)
    (hof : f ∈ keysOf o) (hnf : f ∉ keysOf n)
    (hdir : pyLookup o f = some (-1)) (hr : r ∈ db)
    (hunder : r.path = path ++ "/" ++ f ∨
      ∃ rest, r.path = path ++ "/" ++ f ++ "/" ++ rest) :
    f ∈ (scanhelper db path o n).deleted ∧
    sliceFrom (r.path ++ "/" ++ r.filename) (path.length + 1) ∈
      (scanhelper db path o n).deleted := by
  rw [scanhelper_deleted]
  refine ⟨Finset.mem_union_left _ (Finset.mem_sdiff.mpr ⟨hof, hnf⟩), ?_⟩
  apply Finset.mem_union_right
  apply Finset.mem_biUnion.mpr
  refine ⟨f, Finset.mem_sdiff.mpr ⟨hof, hnf⟩, ?_⟩
  rw [if_pos hdir]
  apply List.mem_toFinset.mpr
  apply List.mem_map.mpr
  refine ⟨r, List.mem_filter.mpr ⟨hr, ?_⟩, rfl⟩
  rcases hunder with h | ⟨rest, h⟩ <;>
    simp [likeMatch, List.isPrefixOf_iff_prefix, h]

/-- C3 witness: with persisted records for the directory `/a` (sentinel `-1`,
recorded in its parent) and the file `/a/b` (mtime `5`), a scan of the parent
whose new snapshot lacks `a` reports both `a` and `a/b` deleted. -/
theorem scanhelper_cascade_deletes_subtree_witness :
    "a" ∈ (scanhelper [⟨"/a", "b", 5⟩] "" [("a", -1)] []).deleted ∧
    "a/b" ∈ (scanhelper [⟨"/a", "b", 5⟩] "" [("a", -1)] []).deleted := by
  have h := scanhelper_cascade_deletes_subtree [⟨"/a", "b", 5⟩] "" "a"
    [("a", -1)] [] ⟨"/a", "b", 5⟩
    (by decide) (by decide) (by decide) (by decide) (Or.inl rfl)
  exact ⟨h.1, h.2⟩

/-- C4 counterexample: with a persisted record under a deleted directory, the
cascade expansion puts the relative path `a/b` into `deleted`, so the four
sets no longer partition `N ∪ O`: the union strictly exceeds it (and the
claimed conjunction of union-equality and disjointness fails). -/
theorem partition_after_cascade_fails :
    ¬ (((scanhelper [⟨"/a", "b", 5⟩] "" [("a", -1)] []).created ∪
        (scanhelper [⟨"/a", "b", 5⟩] "" [("a", -1)] []).deleted ∪
        (scanhelper [⟨"/a", "b", 5⟩] "" [("a", -1)] []).modified ∪
        unchangedOf [("a", -1)] [] =
          keysOf ([] : List (String × Int)) ∪ keysOf [("a", -1)]) ∧
       (scanhelper [⟨"/a", "b", 5⟩] "" [("a", -1)] []).created ∩
        (scanhelper [⟨"/a", "b", 5⟩] "" [("a", -1)] []).deleted = ∅ ∧
       (scanhelper [⟨"/a", "b", 5⟩] "" [("a", -1)] []).created ∩
        (scanhelper [⟨"/a", "b", 5⟩] "" [("a", -1)] []).modified = ∅ ∧
       (scanhelper [⟨"/a", "b", 5⟩] "" [("a", -1)] []).deleted ∩
        (scanhelper [⟨"/a", "b", 5⟩] "" [("a", -1)] []).modified = ∅) := by
  decide

/-- C4 amended: with `deleted` taken before cascade expansion (equivalently,
when the record store holds no row below any deleted directory, here the
empty store), `created ∪ deleted ∪ modified ∪ unchanged = N ∪ O` and the four
sets are pairwise disjoint; after cascade expansion `deleted` may additionally
contain relative paths of persisted descendants, which lie outside `N ∪ O`. -/
theorem partition_before_cascade (path : String)
    (o n : List (String × Int)) :
    ((scanhelper ([] : DB) path o n).created ∪
     (scanhelper ([] : DB) path o n).deleted ∪
     (scanhelper ([] : DB) path o n).modified ∪ unchangedOf o n =
       keysOf n ∪ keysOf o) ∧
    Disjoint (scanhelper ([] : DB) path o n).created
      (scanhelper ([] : DB) path o n).deleted ∧
    Disjoint (scanhelper ([] : DB) path o n).created
      (scanhelper ([] : DB) path o n).modified ∧
    Disjoint (scanhelper ([] : DB) path o n).created (unchangedOf o n) ∧
    Disjoint (scanhelper ([] : DB) path o n).deleted
      (scanhelper ([] : DB) path o n).modified ∧
    Disjoint (scanhelper ([] : DB) path o n).deleted (unchangedOf o n) ∧
    Disjoint (scanhelper ([] : DB) path o n).modified (unchangedOf o n) := by
  rw [scanhelper_created, scanhelper_modified, scanhelper_deleted_nil]
  refine ⟨?_, ?_, ?_, ?_, ?_, ?_, ?_⟩
  · ext f
    simp only [unchangedOf, Finset.mem_union, Finset.mem_sdiff,
      Finset.mem_filter, Finset.mem_inter]
    by_cases ho : f ∈ keysOf o <;> by_cases hn : f ∈ keysOf n <;>
      by_cases hm : pyLookup o f = pyLookup n f <;> simp [ho, hn, hm]
  all_goals
    rw [Finset.disjoint_left]
    intro f hf hg
    simp only [unchangedOf, Finset.mem_sdiff, Finset.mem_filter,
      Finset.mem_inter] at hf hg
    tauto

/-- C8: an entry present in both snapshots whose sentinel flips between the
directory marker `-1` and a real file mtime `≥ 0` (either direction) is
classified `modified`; an entry carrying the sentinel `-1` on both sides
(a directory in both snapshots) is never classified `modified`. -/
theorem sentinel_change_modified (db : DB) (path : String)
    (o n : List (String × Int)) (f : String) (m : Int) :
    (pyLookup o f = some (-1) → pyLookup n f = some m → 0 ≤ m →
      f ∈ (scanhelper db path o n).modified) ∧
    (pyLookup o f = some m → 0 ≤ m → pyLookup n f = some (-1) →
      f ∈ (scanhelper db path o n).modified) ∧
    (pyLookup o f = some (-1) → pyLookup n f = some (-1) →
      f ∉ (scanhelper db path o n).modified) := by
  rw [scanhelper_modified]
  refine ⟨fun ho hn hm => ?_, fun ho hm hn => ?_, fun ho hn hmem => ?_⟩
  · refine Finset.mem_filter.mpr ⟨Finset.mem_inter.mpr
      ⟨mem_keysOf.mpr ⟨_, ho⟩, mem_keysOf.mpr ⟨_, hn⟩⟩, ?_⟩
    rw [ho, hn]
    intro h
    have : (-1 : Int) = m := by exact_mod_cast Option.some.inj h
    omega
  · refine Finset.mem_filter.mpr ⟨Finset.mem_inter.mpr
      ⟨mem_keysOf.mpr ⟨_, ho⟩, mem_keysOf.mpr ⟨_, hn⟩⟩, ?_⟩
    rw [ho, hn]
    intro h
    have : m = (-1 : Int) := by exact_mod_cast Option.some.inj h
    omega
  · have := (Finset.mem_filter.mp hmem).2
    rw [ho, hn] at this
    exact this rfl

/-- C8 witness: a name whose record flips from directory sentinel to file
mtime `3` (and back), and one that stays a directory. -/
theorem sentinel_change_modified_witness :
    "a" ∈ (scanhelper [] "/p" [("a", -1)] [("a", 3)]).modified ∧
    "a" ∈ (scanhelper [] "/p" [("a", 3)] [("a", -1)]).modified ∧
    "a" ∉ (scanhelper [] "/p" [("a", -1)] [("a", -1)]).modified := by
  refine ⟨?_, ?_, ?_⟩
  · exact (sentinel_change_modified [] "/p" [("a", -1)] [("a", 3)] "a" 3).1
      (by decide) (by decide) (by decide)
  · exact (sentinel_change_modified [] "/p" [("a", 3)] [("a", -1)] "a" 3).2.1
      (by decide) (by decide) (by decide)
  · exact (sentinel_change_modified [] "/p" [("a", -1)] [("a", -1)] "a" 0).2.2
      (by decide) (by decide)

/-- C9: listing a directory produces exactly the children whose metadata
lookup succeeds, in order — an entry whose `stat` fails is skipped and every
other child is still produced, so one inaccessible entry never aborts the
listing. -/
theorem listdir_skips_failing_entries (l : List (String × FS)) :
    listdir l = l.filterMap
      (fun p => (statFS p.2).map (fun md => (p.1, md.1, md.2))) ∧
    (∀ nm c m d, (nm, c) ∈ l → statFS c = some (m, d) →
      (nm, m, d) ∈ listdir l) := by
  have hmain : ∀ l : List (String × FS), listdir l = l.filterMap
      (fun p => (statFS p.2).map (fun md => (p.1, md.1, md.2))) := by
    intro l
    induction l with
    | nil => rfl
    | cons p rest ih =>
      obtain ⟨nm, c⟩ := p
      cases hc : statFS c with
      | none => simp [listdir, hc, ih]
      | some md =>
        obtain ⟨m, d⟩ := md
        simp [listdir, hc, ih]
  refine ⟨hmain l, fun nm c m d hmem hstat => ?_⟩
  rw [hmain l]
  exact List.mem_filterMap.mpr ⟨(nm, c), hmem, by simp [hstat]⟩

/-- C9 witness: a listing with a vanished middle entry still yields both
accessible neighbours. -/
theorem listdir_skips_failing_entries_witness :
    ("a", 3, false) ∈ listdir
      [("a", FS.file 3), ("gone", FS.inaccessible), ("b", FS.file 7)] ∧
    ("b", 7, false) ∈ listdir
      [("a", FS.file 3), ("gone", FS.inaccessible), ("b", FS.file 7)] := by
  refine ⟨?_, ?_⟩
  · exact (listdir_skips_failing_entries
      [("a", FS.file 3), ("gone", FS.inaccessible), ("b", FS.file 7)]).2
      "a" (FS.file 3) 3 false (by simp) rfl
  · exact (listdir_skips_failing_entries
      [("a", FS.file 3), ("gone", FS.inaccessible), ("b", FS.file 7)]).2
      "b" (FS.file 7) 7 false (by simp) rfl

/-- C6: when the record store already holds a record for `path`,
`initial_scan` returns the "already populated" signal `false` and leaves the
store untouched; it does not consult the filesystem at all (the result is the
same for every filesystem state), and a second call on the resulting store
again returns `false` and the store after the first call. -/
theorem initial_scan_idempotent (db : DB) (path : String) (fs : FS)
    (h : countRecords db path > 0) :
    initial_scan db path fs = (false, db) ∧
    initial_scan (initial_scan db path fs).2 path fs = (false, db) ∧
    (∀ fs', initial_scan db path fs' = initial_scan db path fs) := by
  have h1 : initial_scan db path fs = (false, db) := by
    unfold initial_scan
    rw [if_pos h]
  refine ⟨h1, ?_, fun fs' => ?_⟩
  · rw [h1, h1]
  · unfold initial_scan
    rw [if_pos h, if_pos h]

/-- C6 witness: a store already holding a row for `/p` is signalled as
populated and left unchanged by two consecutive `initial_scan` calls. -/
theorem initial_scan_idempotent_witness :
    countRecords [⟨"/p", "a", 3⟩] "/p" > 0 ∧
    initial_scan [⟨"/p", "a", 3⟩] "/p" (FS.dir 0 []) =
      (false, [⟨"/p", "a", 3⟩]) ∧
    initial_scan
        (initial_scan [⟨"/p", "a", 3⟩] "/p" (FS.dir 0 [])).2 "/p"
        (FS.dir 0 []) = (false, [⟨"/p", "a", 3⟩]) := by
  have h := initial_scan_idempotent [⟨"/p", "a", 3⟩] "/p" (FS.dir 0 [])
    (by decide)
  exact ⟨by decide, h.1, h.2.1⟩

/-- C7: end-to-end discovery of a wholly new subtree in one `scan_tree` call.
After an initial scan of the empty directory `/x` (which persists nothing),
the subtree `/x/y/z.txt` is created; `scan_tree "/x"` then reports the new
directory as created under `/x` (as the qualified path `/x/y`) and its file
as created under `/x/y` (as `/x/y/z.txt`), because the recursion descends
into every subdirectory present on the live filesystem, not only those known
to the record store. -/
theorem scan_tree_discovers_new_subtree :
    scan_tree (initial_scan [] "/x" (FS.dir 0 [])).2 "/x"
        (FS.dir 0 [("y", FS.dir 10 [("z.txt", FS.file 20)])]) =
      ([("/x", ⟨{"/x/y"}, ∅, ∅⟩), ("/x/y", ⟨{"/x/y/z.txt"}, ∅, ∅⟩)],
       [⟨"/x", "y", -1⟩, ⟨"/x/y", "z.txt", 20⟩]) := by
  decide

/-! ## Lemmas about path splitting and delete targets -/

theorem pyLookup_map_pairs (l : List String) (g : String → Int) (k : String) :
    pyLookup (l.map (fun f => (f, g f))) k =
      if k ∈ l then some (g k) else none := by
  induction l with
  | nil => simp [pyLookup]
  | cons a l ih =>
    simp only [List.map_cons, pyLookup, ih, List.mem_cons]
    by_cases hk : k ∈ l
    · simp [hk]
    · by_cases ha : a = k
      · simp [hk, ha]
      · have hka : ¬ k = a := fun h => ha h.symm
        simp [hk, ha, hka]

/-- For a separator-free name the `DELETE` issued by `scan` targets the
scanned directory itself and the name unchanged. -/
theorem delTarget_plain (path s : String) (h : '/' ∉ s.data) :
    basenameOf s = s ∧ dirnameOf s = "" ∧ delTarget path s = (path, s) := by
  have htake : s.data.reverse.takeWhile (fun c => decide (c ≠ '/')) =
      s.data.reverse := by
    rw [List.takeWhile_eq_self_iff]
    intro a ha
    have : a ≠ '/' := fun e => h (e ▸ List.mem_reverse.mp ha)
    simp [this]
  have hbase : basenameOf s = s := by
    apply String.ext
    show (s.data.reverse.takeWhile (fun c => decide (c ≠ '/'))).reverse = s.data
    rw [htake, List.reverse_reverse]
  have hdir : dirnameOf s = "" := by
    unfold dirnameOf
    rw [hbase]
    simp
  refine ⟨hbase, hdir, ?_⟩
  unfold delTarget
  rw [hbase, hdir]
  simp

/-- A relative path containing a separator has a non-empty dirname. -/
theorem dirname_ne_empty_of_sep (s : String) (h : '/' ∈ s.data) :
    (dirnameOf s).length ≠ 0 := by
  have hlt : (basenameOf s).data.length < s.data.length := by
    show (s.data.reverse.takeWhile (fun c => decide (c ≠ '/'))).reverse.length <
      s.data.length
    rw [List.length_reverse]
    rcases Nat.lt_or_ge ((s.data.reverse.takeWhile
      (fun c => decide (c ≠ '/'))).length) s.data.length with hl | hl
    · exact hl
    · exfalso
      have hle := (List.takeWhile_prefix
        (l := s.data.reverse) (fun c => decide (c ≠ '/'))).length_le
      rw [List.length_reverse] at hle
      have hlen : (s.data.reverse.takeWhile
          (fun c => decide (c ≠ '/'))).length = s.data.reverse.length := by
        rw [List.length_reverse]; omega
      have heq := (List.takeWhile_prefix
        (l := s.data.reverse) (fun c => decide (c ≠ '/'))).eq_of_length hlen
      have hall := List.takeWhile_eq_self_iff.mp heq
      have := hall '/' (List.mem_reverse.mpr h)
      simp at this
  have hhead : s.data.take (s.data.length - (basenameOf s).data.length) ≠
      [] := by
    intro hnil
    have := congrArg List.length hnil
    rw [List.length_take] at this
    simp only [List.length_nil] at this
    omega
  show (dirnameOf s).data.length ≠ 0
  unfold dirnameOf
  by_cases hany : (s.data.take (s.data.length - (basenameOf s).data.length)).any
      (fun c => decide (c ≠ '/'))
  · simp only [hany, if_true]
    intro hz
    rw [List.length_reverse] at hz
    have hnil := List.length_eq_zero.mp hz
    rw [List.dropWhile_eq_nil_iff] at hnil
    rcases List.any_eq_true.mp hany with ⟨c, hc, hcne⟩
    have := hnil c (List.mem_reverse.mpr hc)
    simp at hcne this
    exact hcne this
  · simp only [hany, if_false]
    intro hz
    exact hhead (List.length_eq_zero.mp hz)

/-- Qualifying any name by `path + os.sep` never gives back `path` itself. -/
theorem append_sep_ne (path x : String) : path ++ "/" ++ x ≠ path := by
  intro h
  have := congrArg String.length h
  rw [String.length_append, String.length_append] at this
  have hone : ("/" : String).length = 1 := rfl
  omega

/-- Case analysis on membership of the (cascade-expanded) `deleted` set: a
member is either an old name missing from the new snapshot, or a relative
path produced by the cascade query for some deleted directory. -/
theorem mem_deleted_cases {db : DB} {path : String}
    {o n : List (String × Int)} {g : String}
    (h : g ∈ (scanhelper db path o n).deleted) :
    (g ∈ keysOf o ∧ g ∉ keysOf n) ∨
    ∃ f r, (f ∈ keysOf o ∧ f ∉ keysOf n) ∧ pyLookup o f = some (-1) ∧
      r ∈ db ∧ likeMatch (path ++ "/" ++ f) r.path = true ∧
      g = sliceFrom (r.path ++ "/" ++ r.filename) (path.length + 1) := by
  rw [scanhelper_deleted] at h
  rcases Finset.mem_union.mp h with h | h
  · exact Or.inl (Finset.mem_sdiff.mp h)
  · right
    rcases Finset.mem_biUnion.mp h with ⟨f, hf, hg⟩
    by_cases hd : pyLookup o f = some (-1)
    · rw [if_pos hd] at hg
      rcases List.mem_map.mp (List.mem_toFinset.mp hg) with ⟨r, hr, hrel⟩
      have hr' := List.mem_filter.mp hr
      exact ⟨f, r, Finset.mem_sdiff.mp hf, hd, hr'.1, hr'.2, hrel.symm⟩
    · rw [if_neg hd] at hg
      exact absurd hg (Finset.not_mem_empty g)

/-- A relative path produced by the cascade query always contains the
separator that joined the matched row's directory path to its filename. -/
theorem cascade_sliceFrom_data {path f : String} {r : DBRow}
    (hm : likeMatch (path ++ "/" ++ f) r.path = true) :
    ∃ X : List Char,
      (sliceFrom (r.path ++ "/" ++ r.filename) (path.length + 1)).data =
        X ++ '/' :: r.filename.data := by
  have hpre : (path ++ "/" ++ f).data <+: r.path.data :=
    List.isPrefixOf_iff_prefix.mp hm
  have hlen : path.length + 1 ≤ r.path.data.length := by
    have hle := hpre.length_le
    simp only [String.data_append, List.length_append,
      List.length_singleton] at hle
    show path.data.length + 1 ≤ r.path.data.length
    omega
  refine ⟨r.path.data.drop (path.length + 1), ?_⟩
  show ((r.path ++ "/" ++ r.filename)).data.drop (path.length + 1) = _
  have hd : (r.path ++ "/" ++ r.filename).data =
      r.path.data ++ '/' :: r.filename.data := by
    simp
  rw [hd, List.drop_append_of_le_length hlen]

/-- The `DELETE` issued for a cascade-produced relative path never targets a
row keyed directly under the scanned directory. -/
theorem cascade_target_first_ne (path g : String) (h : '/' ∈ g.data) :
    (delTarget path g).1 ≠ path := by
  simp only [delTarget]
  rw [if_pos (dirname_ne_empty_of_sep g h)]
  exact append_sep_ne path (dirnameOf g)

theorem fetchPairs_cons (r : DBRow) (db : DB) (P : String) :
    fetchPairs (r :: db) P =
      if r.path = P then (r.filename, r.mtime) :: fetchPairs db P
      else fetchPairs db P := by
  unfold fetchPairs
  rw [List.filter_cons]
  by_cases hp : r.path = P <;> simp [hp]

theorem pyLookup_cons (p : String × Int) (l : List (String × Int))
    (k : String) :
    pyLookup (p :: l) k =
      match pyLookup l k with
      | some v => some v
      | none => if p.1 = k then some p.2 else none := rfl

/-- Rows keyed `(P, f)` all filtered away: the key disappears from the
post-scan snapshot. -/
theorem lookup_map_filter_none (F : DBRow → DBRow) (q : DBRow → Bool)
    (P f : String) (db : DB)
    (hF : ∀ r, (F r).path = r.path ∧ (F r).filename = r.filename)
    (hq : ∀ r ∈ db, r.path = P → r.filename = f → q (F r) = false) :
    pyLookup (fetchPairs ((db.map F).filter q) P) f = none := by
  induction db with
  | nil => rfl
  | cons r rest ih =>
    have ih' := ih (fun r' h => hq r' (List.mem_cons_of_mem _ h))
    simp only [List.map_cons, List.filter_cons]
    by_cases hqr : q (F r)
    · rw [if_pos hqr, fetchPairs_cons]
      by_cases hp : (F r).path = P
      · rw [if_pos hp, pyLookup_cons, ih']
        by_cases hf : (F r).filename = f
        · exfalso
          have := hq r (List.mem_cons_self r rest)
            ((hF r).1 ▸ hp) ((hF r).2 ▸ hf)
          rw [this] at hqr
          exact Bool.false_ne_true hqr
        · simp [hf]
      · rw [if_neg hp]
        exact ih'
    · rw [if_neg hqr]
      exact ih'

/-- Rows keyed `(P, f)` all kept and unchanged: the post-scan snapshot agrees
with the pre-scan snapshot at `f`. -/
theorem lookup_map_filter_pres (F : DBRow → DBRow) (q : DBRow → Bool)
    (P f : String) (db : DB)
    (hF : ∀ r, (F r).path = r.path ∧ (F r).filename = r.filename)
    (hk : ∀ r ∈ db, r.path = P → r.filename = f → q (F r) = true ∧ F r = r) :
    pyLookup (fetchPairs ((db.map F).filter q) P) f =
      pyLookup (fetchPairs db P) f := by
  induction db with
  | nil => rfl
  | cons r rest ih =>
    have ih' := ih (fun r' h => hk r' (List.mem_cons_of_mem _ h))
    simp only [List.map_cons, List.filter_cons]
    rw [fetchPairs_cons (r := r)]
    by_cases hp : r.path = P
    · rw [if_pos hp]
      by_cases hf : r.filename = f
      · have hkey := hk r (List.mem_cons_self r rest) hp hf
        rw [if_pos hkey.1, hkey.2, fetchPairs_cons, if_pos hp,
          pyLookup_cons, pyLookup_cons, ih']
      · by_cases hqr : q (F r)
        · rw [if_pos hqr, fetchPairs_cons, if_pos ((hF r).1.trans hp),
            pyLookup_cons, pyLookup_cons, ih']
          cases hrest : pyLookup (fetchPairs rest P) f
          · have hFf : (F r).filename ≠ f := fun h => hf ((hF r).2 ▸ h)
            simp [hFf, hf]
          · rfl
        · rw [if_neg hqr, pyLookup_cons, ih']
          cases hrest : pyLookup (fetchPairs rest P) f
          · simp [hf]
          · rfl
    · rw [if_neg hp]
      by_cases hqr : q (F r)
      · rw [if_pos hqr, fetchPairs_cons, if_neg (fun h => hp ((hF r).1 ▸ h))]
        exact ih'
      · rw [if_neg hqr]
        exact ih'

/-- Rows keyed `(P, f)` all kept with their mtime rewritten to the constant
`v`: the post-scan snapshot maps `f` to `v` exactly when `f` was present. -/
theorem lookup_map_filter_const (F : DBRow → DBRow) (q : DBRow → Bool)
    (P f : String) (v : Int) (db : DB)
    (hF : ∀ r, (F r).path = r.path ∧ (F r).filename = r.filename)
    (hk : ∀ r ∈ db, r.path = P → r.filename = f →
      q (F r) = true ∧ (F r).mtime = v) :
    pyLookup (fetchPairs ((db.map F).filter q) P) f =
      if f ∈ keysOf (fetchPairs db P) then some v else none := by
  induction db with
  | nil => rfl
  | cons r rest ih =>
    have ih' := ih (fun r' h => hk r' (List.mem_cons_of_mem _ h))
    simp only [List.map_cons, List.filter_cons]
    rw [fetchPairs_cons (r := r)]
    by_cases hp : r.path = P
    · rw [if_pos hp]
      have hkeys : keysOf ((r.filename, r.mtime) :: fetchPairs rest P) =
          insert r.filename (keysOf (fetchPairs rest P)) := by
        simp [keysOf]
      by_cases hf : r.filename = f
      · have hkey := hk r (List.mem_cons_self r rest) hp hf
        rw [if_pos hkey.1, fetchPairs_cons, if_pos ((hF r).1.trans hp),
          pyLookup_cons, ih', hkeys, hf]
        by_cases hmem : f ∈ keysOf (fetchPairs rest P)
        · simp [hmem]
        · simp [hmem, (hF r).2, hf, hkey.2]
      · have hmemiff : f ∈ keysOf ((r.filename, r.mtime) ::
            fetchPairs rest P) ↔ f ∈ keysOf (fetchPairs rest P) := by
          rw [hkeys, Finset.mem_insert]
          constructor
          · rintro (h | h)
            · exact absurd h.symm hf
            · exact h
          · exact Or.inr
        by_cases hqr : q (F r)
        · rw [if_pos hqr, fetchPairs_cons, if_pos ((hF r).1.trans hp),
            pyLookup_cons, ih']
          by_cases hmem : f ∈ keysOf (fetchPairs rest P)
          · simp [hmem, hmemiff.mpr hmem]
          · have hFf : (F r).filename ≠ f := fun h => hf ((hF r).2 ▸ h)
            simp only [hmem, if_neg]
            simp [hFf, hmemiff, hmem]
        · rw [if_neg hqr, ih']
          by_cases hmem : f ∈ keysOf (fetchPairs rest P)
          · simp [hmem, hmemiff.mpr hmem]
          · simp [hmemiff, hmem]
    · rw [if_neg hp]
      by_cases hqr : q (F r)
      · rw [if_pos hqr, fetchPairs_cons, if_neg (fun h => hp ((hF r).1 ▸ h))]
        exact ih'
      · rw [if_neg hqr]
        exact ih'

theorem keysOf_fetchPairs_mem {db : DB} {P g : String} :
    g ∈ keysOf (fetchPairs db P) ↔
      ∃ r ∈ db, r.path = P ∧ r.filename = g := by
  unfold keysOf fetchPairs
  rw [List.mem_toFinset, List.map_map, List.mem_map]
  constructor
  · rintro ⟨r, hr, hg⟩
    have hr' := List.mem_filter.mp hr
    refine ⟨r, hr'.1, ?_, hg⟩
    have := hr'.2
    simpa using this
  · rintro ⟨r, hr, hP, hg⟩
    exact ⟨r, List.mem_filter.mpr ⟨hr, by simpa using hP⟩, hg⟩

theorem fetchPairs_append (a b : DB) (P : String) :
    fetchPairs (a ++ b) P = fetchPairs a P ++ fetchPairs b P := by
  unfold fetchPairs
  rw [List.filter_append, List.map_append]

theorem mem_modified_iff {db : DB} {path : String}
    {o n : List (String × Int)} {f : String} :
    f ∈ (scanhelper db path o n).modified ↔
      (f ∈ keysOf o ∧ f ∈ keysOf n) ∧ pyLookup o f ≠ pyLookup n f := by
  rw [scanhelper_modified, Finset.mem_filter, Finset.mem_inter]

/-- Every name persisted directly under the scanned directory of a
separator-clean store is separator-free. -/
theorem keys_old_slashfree (db : DB) (path : String)
    (H : ∀ r ∈ db, r.path = path → '/' ∉ r.filename.data) :
    ∀ g ∈ keysOf (fetchPairs db path), '/' ∉ g.data := by
  intro g hg
  rcases keysOf_fetchPairs_mem.mp hg with ⟨r, hr, hP, hfn⟩
  exact hfn ▸ H r hr hP

/-- No `DELETE` issued by a scan of a separator-clean store hits a key whose
name is present in the new snapshot. -/
theorem no_delete_hits_new (db : DB) (path : String)
    (n : List (String × Int))
    (H : ∀ r ∈ db, r.path = path → '/' ∉ r.filename.data)
    (f : String) (hfn : f ∈ keysOf n) :
    ∀ g ∈ (scanhelper db path (fetchPairs db path) n).deleted,
      delTarget path g ≠ (path, f) := by
  intro g hg heq
  rcases mem_deleted_cases hg with ⟨hgo, hgn⟩ | ⟨f₀, r, _, _, _, hm, hrel⟩
  · have hsf := keys_old_slashfree db path H g hgo
    rw [(delTarget_plain path g hsf).2.2] at heq
    have : g = f := (Prod.mk.injEq _ _ _ _ ▸ heq).2
    exact hgn (this ▸ hfn)
  · rcases cascade_sliceFrom_data hm with ⟨X, hX⟩
    have hsep : '/' ∈ g.data := by
      rw [hrel, hX]
      exact List.mem_append_right X (List.mem_cons_self _ _)
    exact cascade_target_first_ne path g hsep (congrArg Prod.fst heq)

/-- A row keyed by a deleted plain name is removed by the `DELETE` pass. -/
theorem keepRow_false_of_deleted (db : DB) (path : String)
    (n : List (String × Int))
    (H : ∀ r ∈ db, r.path = path → '/' ∉ r.filename.data)
    (f : String) (hfo : f ∈ keysOf (fetchPairs db path))
    (hfn : f ∉ keysOf n) (r : DBRow)
    (hrp : r.path = path) (hrf : r.filename = f) :
    keepRow path (scanhelper db path (fetchPairs db path) n).deleted r =
      false := by
  unfold keepRow
  rw [decide_eq_false_iff_not, not_not]
  refine ⟨f, ?_, ?_⟩
  · rw [scanhelper_deleted]
    exact Finset.mem_union_left _ (Finset.mem_sdiff.mpr ⟨hfo, hfn⟩)
  · have hsf := keys_old_slashfree db path H f hfo
    rw [(delTarget_plain path f hsf).2.2, hrp, hrf]

/-- A row keyed by a name present in the new snapshot is kept by the
`DELETE` pass. -/
theorem keepRow_true_of_new (db : DB) (path : String)
    (n : List (String × Int))
    (H : ∀ r ∈ db, r.path = path → '/' ∉ r.filename.data)
    (f : String) (hfn : f ∈ keysOf n) (r : DBRow)
    (hrp : r.path = path) (hrf : r.filename = f) :
    keepRow path (scanhelper db path (fetchPairs db path) n).deleted r =
      true := by
  unfold keepRow
  rw [decide_eq_true_eq]
  rintro ⟨g, hg, heq⟩
  rw [hrp, hrf] at heq
  exact no_delete_hits_new db path n H f hfn g hg heq

theorem updRow_key (path : String) (nf : List (String × Int))
    (md : Finset String) (r : DBRow) :
    (updRow path nf md r).path = r.path ∧
    (updRow path nf md r).filename = r.filename := by
  unfold updRow
  by_cases h : r.path = path ∧ r.filename ∈ md <;> simp [h]

theorem updRow_of_not_modified (path : String) (nf : List (String × Int))
    (md : Finset String) (r : DBRow) (h : r.filename ∉ md) :
    updRow path nf md r = r := by
  unfold updRow
  have : ¬ (r.path = path ∧ r.filename ∈ md) := fun hc => h hc.2
  rw [if_neg this]

theorem updRow_of_modified (path : String) (nf : List (String × Int))
    (md : Finset String) (r : DBRow) (w : Int)
    (hp : r.path = path) (hm : r.filename ∈ md)
    (hw : pyLookup nf r.filename = some w) :
    (updRow path nf md r).mtime = w := by
  unfold updRow
  rw [if_pos ⟨hp, hm⟩]
  simp [hw]

theorem scanResult_eq_empty (r : ScanResult) (h1 : r.created = ∅)
    (h2 : r.deleted = ∅) (h3 : r.modified = ∅) : r = ⟨∅, ∅, ∅⟩ := by
  cases r
  subst h1 h2 h3
  rfl

theorem mem_createdList_iff {o n : List (String × Int)} {f : String} :
    f ∈ (n.map Prod.fst).dedup.filter (fun f => f ∉ keysOf o) ↔
      f ∈ keysOf n ∧ f ∉ keysOf o := by
  rw [List.mem_filter, List.mem_dedup]
  unfold keysOf
  simp [List.mem_toFinset]

theorem mem_createdRowsOf {path : String} {o n : List (String × Int)}
    {r : DBRow} :
    r ∈ createdRowsOf path o n ↔
      ∃ f, (f ∈ keysOf n ∧ f ∉ keysOf o) ∧
        r = ⟨path, f, (pyLookup n f).getD 0⟩ := by
  unfold createdRowsOf
  rw [List.mem_map]
  constructor
  · rintro ⟨f, hf, rfl⟩
    exact ⟨f, mem_createdList_iff.mp hf, rfl⟩
  · rintro ⟨f, hf, rfl⟩
    exact ⟨f, mem_createdList_iff.mpr hf, rfl⟩

/-- The rows inserted for created names pass through the `UPDATE` and
`DELETE` stages of the same scan untouched. -/
theorem createdRows_pass (db : DB) (path : String) (n : List (String × Int))
    (H : ∀ r ∈ db, r.path = path → '/' ∉ r.filename.data) :
    ((createdRowsOf path (fetchPairs db path) n).map
        (updRow path n
          (scanhelper db path (fetchPairs db path) n).modified)).filter
      (keepRow path (scanhelper db path (fetchPairs db path) n).deleted) =
    createdRowsOf path (fetchPairs db path) n := by
  have hmap : (createdRowsOf path (fetchPairs db path) n).map
      (updRow path n
        (scanhelper db path (fetchPairs db path) n).modified) =
      createdRowsOf path (fetchPairs db path) n := by
    conv_rhs => rw [← List.map_id (createdRowsOf path (fetchPairs db path) n)]
    apply List.map_congr_left
    intro r hr
    rcases mem_createdRowsOf.mp hr with ⟨f, ⟨hfn, hfo⟩, rfl⟩
    apply updRow_of_not_modified
    intro hmem
    exact hfo (mem_modified_iff.mp hmem).1.1
  rw [hmap]
  apply List.filter_eq_self.mpr
  intro r hr
  rcases mem_createdRowsOf.mp hr with ⟨f, ⟨hfn, hfo⟩, rfl⟩
  exact keepRow_true_of_new db path n H f hfn _ rfl rfl

theorem fetchPairs_createdRowsOf (path : String)
    (o n : List (String × Int)) :
    fetchPairs (createdRowsOf path o n) path =
      ((n.map Prod.fst).dedup.filter (fun f => f ∉ keysOf o)).map
        (fun f => (f, (pyLookup n f).getD 0)) := by
  unfold createdRowsOf fetchPairs
  rw [List.filter_map, List.map_map]
  have hfilter : ((n.map Prod.fst).dedup.filter (fun f => f ∉ keysOf o)).filter
      ((fun r : DBRow => decide (r.path = path)) ∘
        (fun f => (⟨path, f, (pyLookup n f).getD 0⟩ : DBRow))) =
      (n.map Prod.fst).dedup.filter (fun f => f ∉ keysOf o) := by
    apply List.filter_eq_self.mpr
    intro a _
    simp
  rw [hfilter]
  apply List.map_congr_left
  intro a _
  rfl

theorem pyLookup_createdPairs (o n : List (String × Int)) (k : String) :
    pyLookup (((n.map Prod.fst).dedup.filter (fun f => f ∉ keysOf o)).map
      (fun f => (f, (pyLookup n f).getD 0))) k =
      if k ∈ (n.map Prod.fst).dedup.filter (fun f => f ∉ keysOf o)
      then some ((pyLookup n k).getD 0) else none :=
  pyLookup_map_pairs _ _ k

/-- Master lemma for the round trip: after a scan of a separator-clean store,
the snapshot persisted for the scanned directory agrees, name by name, with
the freshly observed snapshot that the scan applied. -/
theorem scan_lookup (db : DB) (path : String)
    (listing : List (String × Int × Bool))
    (H : ∀ r ∈ db, r.path = path → '/' ∉ r.filename.data) (f : String) :
    pyLookup (fetchPairs (scan db path listing).2 path) f =
      pyLookup (newFilesOf listing) f := by
  show pyLookup (fetchPairs
    (((db ++ createdRowsOf path (fetchPairs db path) (newFilesOf listing)).map
        (updRow path (newFilesOf listing)
          (scanhelper db path (fetchPairs db path)
            (newFilesOf listing)).modified)).filter
      (keepRow path (scanhelper db path (fetchPairs db path)
        (newFilesOf listing)).deleted)) path) f =
    pyLookup (newFilesOf listing) f
  rw [List.map_append, List.filter_append, fetchPairs_append,
    createdRows_pass db path (newFilesOf listing) H,
    fetchPairs_createdRowsOf path (fetchPairs db path) (newFilesOf listing),
    pyLookup_append, pyLookup_createdPairs]
  by_cases hc : f ∈ ((newFilesOf listing).map Prod.fst).dedup.filter
      (fun f => f ∉ keysOf (fetchPairs db path))
  · rw [if_pos hc]
    rcases mem_keysOf.mp (mem_createdList_iff.mp hc).1 with ⟨w, hw⟩
    rw [hw]
    rfl
  · rw [if_neg hc]
    have hF := updRow_key path (newFilesOf listing)
      (scanhelper db path (fetchPairs db path) (newFilesOf listing)).modified
    by_cases hfo : f ∈ keysOf (fetchPairs db path)
    · by_cases hfn : f ∈ keysOf (newFilesOf listing)
      · by_cases hm : f ∈ (scanhelper db path (fetchPairs db path)
            (newFilesOf listing)).modified
        · rcases mem_keysOf.mp hfn with ⟨w, hw⟩
          rw [lookup_map_filter_const _ _ path f w db hF ?hk, if_pos hfo, hw]
          case hk =>
            intro r hr hrp hrf
            constructor
            · exact keepRow_true_of_new db path (newFilesOf listing) H f hfn _
                (((hF r).1).trans hrp) (((hF r).2).trans hrf)
            · exact updRow_of_modified path (newFilesOf listing) _ r w hrp
                (hrf ▸ hm) (hrf ▸ hw)
        · rw [lookup_map_filter_pres _ _ path f db hF ?hk]
          case hk =>
            intro r hr hrp hrf
            refine ⟨keepRow_true_of_new db path (newFilesOf listing) H f hfn _
              (((hF r).1).trans hrp) (((hF r).2).trans hrf), ?_⟩
            exact updRow_of_not_modified _ _ _ r (hrf ▸ hm)
          by_contra hne
          exact hm (mem_modified_iff.mpr ⟨⟨hfo, hfn⟩, hne⟩)
      · rw [lookup_map_filter_none _ _ path f db hF ?hq,
          pyLookup_eq_none.mpr hfn]
        case hq =>
          intro r hr hrp hrf
          exact keepRow_false_of_deleted db path (newFilesOf listing) H f hfo
            hfn _ (((hF r).1).trans hrp) (((hF r).2).trans hrf)
    · have hfn : f ∉ keysOf (newFilesOf listing) := by
        intro hfn
        exact hc (mem_createdList_iff.mpr ⟨hfn, hfo⟩)
      rw [lookup_map_filter_pres _ _ path f db hF ?hk,
        pyLookup_eq_none.mpr hfo, pyLookup_eq_none.mpr hfn]
      case hk =>
        intro r hr hrp hrf
        exact absurd (keysOf_fetchPairs_mem.mpr ⟨r, hr, hrp, hrf⟩) hfo

/-- C5: re-scanning a directory whose live contents did not change since the
previous completed scan produces an empty diff: the first scan's writes bring
the persisted snapshot into agreement with the filesystem, so the second scan
classifies nothing as created, deleted or modified.  (The store is assumed
separator-clean at the scanned directory: persisted names directly under it
contain no path separator, which every store populated from real directory
listings satisfies.) -/
theorem scan_roundtrip_empty_diff (db : DB) (path : String)
    (listing : List (String × Int × Bool))
    (H : ∀ r ∈ db, r.path = path → '/' ∉ r.filename.data) :
    (scan (scan db path listing).2 path listing).1 = ⟨∅, ∅, ∅⟩ := by
  have hA := scan_lookup db path listing H
  have hfst : (scan (scan db path listing).2 path listing).1 =
      scanhelper (scan db path listing).2 path
        (fetchPairs (scan db path listing).2 path) (newFilesOf listing) := rfl
  have hkeys : keysOf (fetchPairs (scan db path listing).2 path) =
      keysOf (newFilesOf listing) := by
    ext g
    rw [mem_keysOf, mem_keysOf, hA g]
  have hc : (scanhelper (scan db path listing).2 path
      (fetchPairs (scan db path listing).2 path)
      (newFilesOf listing)).created = ∅ := by
    rw [scanhelper_created, hkeys, Finset.sdiff_self]
  have hd : (scanhelper (scan db path listing).2 path
      (fetchPairs (scan db path listing).2 path)
      (newFilesOf listing)).deleted = ∅ := by
    rw [scanhelper_deleted, hkeys, Finset.sdiff_self]
    simp
  have hm : (scanhelper (scan db path listing).2 path
      (fetchPairs (scan db path listing).2 path)
      (newFilesOf listing)).modified = ∅ := by
    rw [scanhelper_modified]
    apply Finset.filter_false_of_mem
    intro g _
    rw [not_not]
    exact hA g
  rw [hfst]
  exact scanResult_eq_empty _ hc hd hm

/-- C5 witness: a store holding one stale row for `/p`, round-tripped against
a fixed listing, yields an empty second diff. -/
theorem scan_roundtrip_empty_diff_witness :
    (∀ r ∈ ([⟨"/p", "a", 3⟩] : DB), r.path = "/p" → '/' ∉ r.filename.data) ∧
    (scan (scan [⟨"/p", "a", 3⟩] "/p" [("a", 5, false), ("b", 7, true)]).2
      "/p" [("a", 5, false), ("b", 7, true)]).1 = ⟨∅, ∅, ∅⟩ :=
  ⟨by decide, scan_roundtrip_empty_diff [⟨"/p", "a", 3⟩] "/p"
    [("a", 5, false), ("b", 7, true)] (by decide)⟩

/-! ## The sentinel invariant of the write paths -/

mutual

/-- Well-formed filesystem: every regular file carries a real (non-negative)
mtime, as every POSIX filesystem the scanner targets guarantees. -/
def goodFS : FS → Prop
  | FS.file m => 0 ≤ m
  | FS.dir _ children => goodChildren children
  | FS.inaccessible => True

def goodChildren : List (String × FS) → Prop
  | [] => True
  | (_, c) :: rest => goodFS c ∧ goodChildren rest

end

theorem goodChildren_mem {l : List (String × FS)} {n : String} {c : FS}
    (hg : goodChildren l) (hmem : (n, c) ∈ l) : goodFS c := by
  induction l with
  | nil => cases hmem
  | cons p rest ih =>
    obtain ⟨np, cp⟩ := p
    rw [List.mem_cons] at hmem
    rcases hmem with h | h
    · cases h
      exact hg.1
    · exact ih hg.2 h

/-- `EntryAt path fs p f c`: starting the tree walk of `fs` at absolute path
`path`, some directory is reached at absolute path `p` having a listable
child named `f` whose node is `c`. -/
inductive EntryAt : String → FS → String → String → FS → Prop where
  | here {path : String} {m : Int} {children : List (String × FS)}
      {n : String} {c : FS} (hmem : (n, c) ∈ children) :
      EntryAt path (FS.dir m children) path n c
  | there {path : String} {m m' : Int} {children ch' : List (String × FS)}
      {n' p f : String} {c : FS}
      (hmem : (n', FS.dir m' ch') ∈ children)
      (h : EntryAt (path ++ "/" ++ n') (FS.dir m' ch') p f c) :
      EntryAt path (FS.dir m children) p f c

theorem goodFS_entryAt {path p f : String} {fs c : FS}
    (h : EntryAt path fs p f c) (hg : goodFS fs) : goodFS c := by
  induction h with
  | here hmem => exact goodChildren_mem hg hmem
  | there hmem _ ih => exact ih (goodChildren_mem hg hmem)

mutual

/-- Every row yielded by the tree walk of `fs` rooted at `path` corresponds
to a listable entry of `fs`, and its stored mtime is the listed mtime with
the directory sentinel applied. -/
theorem walktree_mem (path : String) (fs : FS) :
    ∀ row ∈ (walktree path fs).flatten,
      ∃ c m d, EntryAt path fs row.path row.filename c ∧
        statFS c = some (m, d) ∧
        row.mtime = (if d then (-1 : Int) else m) := by
  match fs with
  | FS.file m =>
    intro row h
    simp [walktree] at h
  | FS.inaccessible =>
    intro row h
    simp [walktree] at h
  | FS.dir m children =>
    intro row hrow
    have hwc := walkChildren_mem path children
    rcases hW : walkChildren path children with ⟨bs, rs⟩
    rw [hW] at hwc
    simp only [walktree, hW, List.flatten_append, List.flatten_cons,
      List.flatten_nil, List.append_nil, List.mem_append] at hrow
    rcases hrow with hrow | hrow
    · rcases hwc.2 row hrow with ⟨n, m', ch', c, m₀, d₀, hmem, hE, hs, hm⟩
      exact ⟨c, m₀, d₀, EntryAt.there hmem hE, hs, hm⟩
    · rcases hwc.1 row hrow with ⟨c, m₀, d₀, hmem, hs, hpath, hm⟩
      refine ⟨c, m₀, d₀, ?_, hs, hm⟩
      rw [hpath]
      exact EntryAt.here hmem

theorem walkChildren_mem (path : String) (l : List (String × FS)) :
    (∀ row ∈ (walkChildren path l).2,
      ∃ c m d, (row.filename, c) ∈ l ∧ statFS c = some (m, d) ∧
        row.path = path ∧ row.mtime = (if d then (-1 : Int) else m)) ∧
    (∀ row ∈ (walkChildren path l).1.flatten,
      ∃ n m' ch' c m d, (n, FS.dir m' ch') ∈ l ∧
        EntryAt (path ++ "/" ++ n) (FS.dir m' ch') row.path row.filename c ∧
        statFS c = some (m, d) ∧
        row.mtime = (if d then (-1 : Int) else m)) := by
  match l with
  | [] =>
    constructor <;> intro row h <;> simp [walkChildren] at h
  | (nm, c) :: rest =>
    have ih := walkChildren_mem path rest
    rcases hW : walkChildren path rest with ⟨bs, rs⟩
    rw [hW] at ih
    cases hc : statFS c with
    | none =>
      constructor
      · intro row h
        rw [show walkChildren path ((nm, c) :: rest) = (bs, rs) by
          simp [walkChildren, hc, hW]] at h
        rcases ih.1 row h with ⟨c', m₀, d₀, hmem, hrest⟩
        exact ⟨c', m₀, d₀, List.mem_cons_of_mem _ hmem, hrest⟩
      · intro row h
        rw [show walkChildren path ((nm, c) :: rest) = (bs, rs) by
          simp [walkChildren, hc, hW]] at h
        rcases ih.2 row h with ⟨n, m', ch', c', m₀, d₀, hmem, hrest⟩
        exact ⟨n, m', ch', c', m₀, d₀, List.mem_cons_of_mem _ hmem, hrest⟩
    | some md =>
      obtain ⟨m, d⟩ := md
      cases d with
      | false =>
        have hstep : walkChildren path ((nm, c) :: rest) =
            (bs, (⟨path, nm, m⟩ : DBRow) :: rs) := by
          simp [walkChildren, hc, hW]
        constructor
        · intro row h
          rw [hstep] at h
          rcases List.mem_cons.mp h with h | h
          · subst h
            exact ⟨c, m, false, List.mem_cons_self _ _, hc, rfl, by simp⟩
          · rcases ih.1 row h with ⟨c', m₀, d₀, hmem, hrest⟩
            exact ⟨c', m₀, d₀, List.mem_cons_of_mem _ hmem, hrest⟩
        · intro row h
          rw [hstep] at h
          rcases ih.2 row h with ⟨n, m', ch', c', m₀, d₀, hmem, hrest⟩
          exact ⟨n, m', ch', c', m₀, d₀, List.mem_cons_of_mem _ hmem, hrest⟩
      | true =>
        match c, hc with
        | FS.dir m'' ch'', hc =>
          have hstep : walkChildren path ((nm, FS.dir m'' ch'') :: rest) =
              (walktree (path ++ "/" ++ nm) (FS.dir m'' ch'') ++ bs,
               (⟨path, nm, -1⟩ : DBRow) :: rs) := by
            simp [walkChildren, statFS, hW]
          constructor
          · intro row h
            rw [hstep] at h
            rcases List.mem_cons.mp h with h | h
            · subst h
              exact ⟨FS.dir m'' ch'', m, true, List.mem_cons_self _ _, hc,
                rfl, by simp⟩
            · rcases ih.1 row h with ⟨c', m₀, d₀, hmem, hrest⟩
              exact ⟨c', m₀, d₀, List.mem_cons_of_mem _ hmem, hrest⟩
          · intro row h
            rw [hstep, List.flatten_append, List.mem_append] at h
            rcases h with h | h
            · rcases walktree_mem (path ++ "/" ++ nm) (FS.dir m'' ch'')
                row h with ⟨c', m₀, d₀, hE, hs, hm⟩
              exact ⟨nm, m'', ch'', c', m₀, d₀, List.mem_cons_self _ _,
                hE, hs, hm⟩
            · rcases ih.2 row h with ⟨n, m', ch', c', m₀, d₀, hmem, hrest⟩
              exact ⟨n, m', ch', c', m₀, d₀, List.mem_cons_of_mem _ hmem,
                hrest⟩

end

theorem pyLookup_mem {l : List (String × Int)} {k : String} {v : Int}
    (h : pyLookup l k = some v) : (k, v) ∈ l := by
  induction l with
  | nil => cases h
  | cons p rest ih =>
    rw [pyLookup_cons] at h
    cases hr : pyLookup rest k with
    | some w =>
      rw [hr] at h
      cases h
      exact List.mem_cons_of_mem _ (ih hr)
    | none =>
      rw [hr] at h
      by_cases hk : p.1 = k
      · rw [if_pos hk] at h
        injection h with hv
        have hp : p = (k, v) := Prod.ext_iff.mpr ⟨hk, hv⟩
        rw [← hp]
        exact List.mem_cons_self _ _
      · rw [if_neg hk] at h
        cases h

/-- Every row of the store after a `scan` either predates the scan or was
written by it with the sentinel-transformed mtime of a listed entry. -/
theorem scan_writes (db : DB) (path : String)
    (listing : List (String × Int × Bool)) :
    ∀ row ∈ (scan db path listing).2, row ∈ db ∨
      ∃ e ∈ listing, row.path = path ∧ row.filename = e.1 ∧
        row.mtime = (if e.2.2 then (-1 : Int) else e.2.1) := by
  intro row hrow
  have hrow2 : row ∈ ((db ++ createdRowsOf path (fetchPairs db path)
      (newFilesOf listing)).map
        (updRow path (newFilesOf listing)
          (scanhelper db path (fetchPairs db path)
            (newFilesOf listing)).modified)) :=
    List.mem_of_mem_filter hrow
  rcases List.mem_map.mp hrow2 with ⟨r, hr, hupd⟩
  rcases List.mem_append.mp hr with hr | hr
  · by_cases hcond : r.path = path ∧ r.filename ∈
        (scanhelper db path (fetchPairs db path)
          (newFilesOf listing)).modified
    · right
      have hfn : r.filename ∈ keysOf (newFilesOf listing) :=
        (mem_modified_iff.mp hcond.2).1.2
      rcases mem_keysOf.mp hfn with ⟨w, hw⟩
      have hmt : row.mtime = w := by
        rw [← hupd]
        exact updRow_of_modified path (newFilesOf listing) _ r w hcond.1
          hcond.2 hw
      rcases List.mem_map.mp (pyLookup_mem hw) with ⟨e, he, hpair⟩
      refine ⟨e, he, ?_, ?_, ?_⟩
      · rw [← hupd, (updRow_key path _ _ r).1, hcond.1]
      · rw [← hupd, (updRow_key path _ _ r).2]
        exact (Prod.mk.injEq _ _ _ _ ▸ hpair).1.symm
      · rw [hmt]
        exact ((Prod.mk.injEq _ _ _ _ ▸ hpair).2).symm
    · left
      rw [← hupd, updRow]
      rw [if_neg hcond]
      exact hr
  · right
    rcases mem_createdRowsOf.mp hr with ⟨f, ⟨hfn, hfo⟩, rfl⟩
    rcases mem_keysOf.mp hfn with ⟨w, hw⟩
    rcases List.mem_map.mp (pyLookup_mem hw) with ⟨e, he, hpair⟩
    have hpatheq : row.path = path := by
      rw [← hupd]
      exact (updRow_key path _ _ _).1
    have hfneq : row.filename = f := by
      rw [← hupd]
      exact (updRow_key path _ _ _).2
    have hmt : row.mtime = w := by
      rw [← hupd]
      unfold updRow
      by_cases hcond : (⟨path, f, (pyLookup (newFilesOf listing) f).getD 0⟩ :
          DBRow).path = path ∧
          (⟨path, f, (pyLookup (newFilesOf listing) f).getD 0⟩ :
            DBRow).filename ∈ (scanhelper db path (fetchPairs db path)
              (newFilesOf listing)).modified
      · rw [if_pos hcond]
        simp [hw]
      · rw [if_neg hcond]
        simp [hw]
    refine ⟨e, he, hpatheq, ?_, ?_⟩
    · rw [hfneq]
      exact (Prod.mk.injEq _ _ _ _ ▸ hpair).1.symm
    · rw [hmt]
      exact ((Prod.mk.injEq _ _ _ _ ▸ hpair).2).symm

/-- C10: both write paths preserve the sentinel invariant.  Over a
well-formed filesystem (files carry non-negative mtimes), every row yielded
by the tree walk of `initial_scan` stores mtime `-1` exactly when its
filesystem entry is a directory; and every row of the store after a `scan`
over a well-formed listing either predates the scan or was written with the
listed entry's mtime, storing `-1` exactly when that entry is a directory.
Hence the `mtime == -1` test of the cascade rule identifies exactly the
persisted directories. -/
theorem write_paths_sentinel_invariant (path : String) (fs : FS) (db : DB)
    (listing : List (String × Int × Bool)) :
    (goodFS fs → ∀ row ∈ (walktree path fs).flatten,
      ∃ c m d, EntryAt path fs row.path row.filename c ∧
        statFS c = some (m, d) ∧
        row.mtime = (if d then (-1 : Int) else m) ∧
        (row.mtime = -1 ↔ d = true)) ∧
    ((∀ e ∈ listing, e.2.2 = false → 0 ≤ e.2.1) →
      ∀ row ∈ (scan db path listing).2, row ∈ db ∨
        ∃ e ∈ listing, row.path = path ∧ row.filename = e.1 ∧
          row.mtime = (if e.2.2 then (-1 : Int) else e.2.1) ∧
          (row.mtime = -1 ↔ e.2.2 = true)) := by
  constructor
  · intro hg row hrow
    rcases walktree_mem path fs row hrow with ⟨c, m, d, hE, hs, hm⟩
    refine ⟨c, m, d, hE, hs, hm, ?_⟩
    cases d with
    | true => simp [hm]
    | false =>
      have hgc := goodFS_entryAt hE hg
      cases c with
      | file mf =>
        have hmf : mf = m := by simpa [statFS] using hs
        have hmn : 0 ≤ m := by
          rw [← hmf]
          simpa [goodFS] using hgc
        simp only [Bool.false_eq_true, if_false] at hm
        simp only [Bool.false_eq_true, iff_false]
        rw [hm]
        omega
      | dir mf ch => simp [statFS] at hs
      | inaccessible => simp [statFS] at hs
  · intro hgl row hrow
    rcases scan_writes db path listing row hrow with h | ⟨e, he, hp, hf, hm⟩
    · exact Or.inl h
    · right
      refine ⟨e, he, hp, hf, hm, ?_⟩
      rcases hde : e.2.2 with _ | _
      · have := hgl e he hde
        rw [hde] at hm
        simp only [if_false, Bool.false_eq_true, iff_false] at hm ⊢
        rw [hm]
        omega
      · rw [hde] at hm
        simp [hm]

/-- C10 witness: the tree walk of a one-file directory stores the real mtime
`3` (a non-sentinel), and a scan that discovers a new subdirectory inserts
its row with the sentinel `-1`. -/
theorem write_paths_sentinel_invariant_witness :
    (∃ c m d, EntryAt "/x" (FS.dir 0 [("a", FS.file 3)]) "/x" "a" c ∧
      statFS c = some (m, d) ∧ (3 : Int) = (if d then (-1 : Int) else m) ∧
      ((3 : Int) = -1 ↔ d = true)) ∧
    ((⟨"/p", "b", -1⟩ : DBRow) ∈ ([] : DB) ∨
      ∃ e ∈ [("b", (7 : Int), true)], "/p" = "/p" ∧ "b" = e.1 ∧
        (-1 : Int) = (if e.2.2 then (-1 : Int) else e.2.1) ∧
        ((-1 : Int) = -1 ↔ e.2.2 = true)) := by
  constructor
  · exact (write_paths_sentinel_invariant "/x" (FS.dir 0 [("a", FS.file 3)])
      [] []).1 (by simp [goodFS, goodChildren]) ⟨"/x", "a", 3⟩ (by decide)
  · exact (write_paths_sentinel_invariant "/p" FS.inaccessible []
      [("b", 7, true)]).2 (by decide) ⟨"/p", "b", -1⟩ (by decide)
